import Mathlib

/-!
# Verification of the CA-Tut centrality tutorial notebook

Shallow embedding of the executable logic of `Exercises_Tutorial.ipynb`:
the Mihalcea–Tarau overlap similarity, the embedding-centroid cosine
similarity with its `fillna(0)` normalisation, the TextRank pipeline
(`nx.from_numpy_array` + `nx.pagerank`), the reference-graph builder over
AIF nodesets, the eigenvector-centrality call, and the rank aligners.

Numeric code is modelled in exact arithmetic: rationals for the PageRank
pipeline, reals where the source uses `math.log` and Euclidean norms.
Cells of the notebook that are "To do" placeholders are modelled from the
specification, as marked in the doc comments.
-/

namespace CATut

/-! ## Overlap similarity (Mihalcea–Tarau) -/

/-- Number of tokens common to both sequences, counted without duplicates
(the numerator of the Mihalcea–Tarau measure). -/
def commonCount (a b : List String) : ℕ :=
  (a.toFinset ∩ b.toFinset).card

/-- Modelled from the spec: the notebook cell "To do: implement the
similarity measure" is a placeholder, so the overlap similarity is taken
from the spec's formula, which matches the worked example in the notebook
(`Similarity(Text1, Text2) = 2 / log(5)+log(5) = 0.6213`):
score = (count of tokens common to both sequences, counted without
duplicates) / (log |a| + log |b|), and 0 when either sequence has length
0 or 1. -/
noncomputable def overlapSim (a b : List String) : ℝ :=
  if a.length ≤ 1 ∨ b.length ≤ 1 then 0
  else (commonCount a b : ℝ) / (Real.log a.length + Real.log b.length)

/-! ## Rank aligner (cells `centrality_rankings`, `common_words_rankings`,
`w2v_rankings`) -/

/-- Python's `ranking.index(row[0])` with the notebook's `except:` fallback: the
position of the first occurrence of `pid` in the ranking, and the literal
`1173` when `pid` does not occur (Python raises `ValueError`, caught by the
bare `except`). -/
def rankOf (ranking : List String) (pid : String) : ℕ :=
  match ranking.findIdx? (fun x => x == pid) with
  | some i => i
  | none => 1173

/-- The aligner loop `for row in df.iterrows(): ... append(...)`: one rank
per proposition of the corpus index, in corpus order. -/
def alignRanks (ranking index : List String) : List ℕ :=
  index.map (rankOf ranking)

/-! ## AIF data model and the reference-graph builder (cells
`interesting_nodes` and `sub_graph`) -/

/-- An AIF node: only the fields the notebook reads (`nodeID`, `type`). -/
structure AifNode where
  nodeID : String
  type : String
  deriving DecidableEq

/-- An AIF edge record (`fromID`, `toID`). -/
structure AifEdge where
  fromID : String
  toID : String
  deriving DecidableEq

/-- One nodeset file of the corpus: its `nodes` and `edges` arrays. -/
structure NodeSet where
  nodes : List AifNode
  edges : List AifEdge
  deriving DecidableEq

/-- The mutable state of the `interesting_nodes` loop: the Python variable
`nodeID` (initially the integer `0`, which compares unequal to every string
`toID`, modelled as `none`) and the dict `interesting_nodes` as an
insertion-ordered association list. -/
structure PState where
  cur : Option String
  imap : List (String × List String)

/-- Python dict assignment `m[k] = v`: replace in place when the key is
present, append otherwise. -/
def dictSet (m : List (String × List String)) (k : String) (v : List String) :
    List (String × List String) :=
  if m.any (fun p => p.1 == k) then
    m.map (fun p => if p.1 == k then (k, v) else p)
  else m ++ [(k, v)]

/-- The body of the `for i in range(len(json_data['nodes']))` loop of the
`interesting_nodes` cell: reset `edges = []`, update `nodeID` when the node
is of type `CA` or `RA`, then collect every `fromID` of the current file's
edges whose `toID` equals the (possibly carried-over) `nodeID`, assigning
`interesting_nodes[nodeID] = edges` only when at least one edge matched. -/
def stepNode (es : List AifEdge) (st : PState) (nd : AifNode) : PState :=
  match (if nd.type == "CA" || nd.type == "RA" then some nd.nodeID else st.cur) with
  | none => ⟨none, st.imap⟩
  | some k =>
      ⟨some k,
        if ((es.filter (fun e => e.toID == k)).map (fun e => e.fromID)).isEmpty
        then st.imap
        else dictSet st.imap k ((es.filter (fun e => e.toID == k)).map (fun e => e.fromID))⟩

/-- Process one nodeset file: fold the node loop over the file's nodes.
The state (`nodeID` and the dict) survives from one file to the next, as
in the source where both live outside the file loop. -/
def stepFile (st : PState) (f : NodeSet) : PState :=
  f.nodes.foldl (stepNode f.edges) st

/-- The full `interesting_nodes` computation over the corpus files. -/
def interestingNodes (files : List NodeSet) : List (String × List String) :=
  (files.foldl stepFile ⟨none, []⟩).imap

/-- The `list_of_nodes` list: for each `(key, value)` of `interesting_nodes`, the key
followed by its source propositions. -/
def listOfNodes (m : List (String × List String)) : List String :=
  m.flatMap (fun p => p.1 :: p.2)

/-- The `list_of_edges` list: for each `(key, value)`, one edge `(source, key)` per
source proposition. -/
def listOfEdges (m : List (String × List String)) : List (String × String) :=
  m.flatMap (fun p => p.2.map (fun s => (s, p.1)))

/-- Adjacency in the undirected `sub_graph` built by
`nx.Graph(); add_nodes_from(list_of_nodes); add_edges_from(list_of_edges)`:
`u` and `v` are adjacent when either orientation was added. -/
def subAdj (m : List (String × List String)) (u v : String) : Prop :=
  (u, v) ∈ listOfEdges m ∨ (v, u) ∈ listOfEdges m

instance (m : List (String × List String)) (u v : String) :
    Decidable (subAdj m u v) := by
  unfold subAdj; infer_instance

/-- Keys of the `interesting_nodes` dict (the RA/CA relation hubs). -/
def dictKeys (m : List (String × List String)) : List String :=
  m.map Prod.fst

/-- The identifiers still scored after the loop
`for key, value in interesting_nodes.items(): del centrality[key]`:
the graph's nodes with every relation key removed. -/
def scoredSet (m : List (String × List String)) : List String :=
  (listOfNodes m).filter (fun x => !(decide (x ∈ dictKeys m)))

/-- All `nodeID`s of RA/CA nodes across the corpus files. -/
def relationIDs (files : List NodeSet) : List String :=
  files.flatMap
    (fun f => (f.nodes.filter (fun nd => nd.type == "CA" || nd.type == "RA")).map AifNode.nodeID)

/-- All edge targets (`toID`s) across the corpus files. -/
def edgeTargets (files : List NodeSet) : List String :=
  files.flatMap (fun f => f.edges.map AifEdge.toID)

/-! ## TextRank pipeline: `nx.from_numpy_array` + `nx.pagerank`

The similarity dataframe is turned into a dense matrix (`sim.values`) and
handed to `nx.from_numpy_array` with no further transformation — in
particular the diagonal is not zeroed.  `nx.pagerank` is modelled by its
documented power iteration (damping `alpha = 0.85`, uniform start and
teleportation, dangling mass redistributed uniformly, L1 error test
`err < N * tol` with `tol = 1e-6`, cap `max_iter = 100`, and a
non-convergence failure when the cap is exhausted), in exact rational
arithmetic. -/

/-- The weighted graph produced by `nx.from_numpy_array`: one node per
index; an entry `M i j ≠ 0` is an edge of weight `M i j`, a zero entry is
no edge (weight `0` contributes nothing anywhere below). -/
structure WGraph (n : ℕ) where
  weight : Fin n → Fin n → ℚ

/-- Models `nx.from_numpy_array(sim_matrix)`: the matrix is taken as is — no
diagonal zeroing happens between the similarity computation and graph
construction. -/
def fromNumpyArray {n : ℕ} (M : Fin n → Fin n → ℚ) : WGraph n :=
  ⟨M⟩

/-- Whether `(i, j)` is an edge of the graph (a nonzero matrix entry). -/
def WGraph.hasEdge {n : ℕ} (g : WGraph n) (i j : Fin n) : Prop :=
  g.weight i j ≠ 0

instance {n : ℕ} (g : WGraph n) (i j : Fin n) : Decidable (g.hasEdge i j) := by
  unfold WGraph.hasEdge; infer_instance

/-- The damping factor: networkx's default `alpha = 0.85`. -/
def prD : ℚ := 17 / 20

/-- networkx's default pagerank tolerance `tol = 1e-6`. -/
def prTol : ℚ := 1 / 1000000

/-- Out-strength of node `j`: the total weight of its incident edges
(zero entries contribute nothing).  A node of strength `0` is dangling. -/
def strength {n : ℕ} (g : WGraph n) (j : Fin n) : ℚ :=
  ∑ i, g.weight j i

/-- One pagerank power-iteration step: uniform teleportation `(1-α)/N`,
weight-proportional redistribution from non-dangling nodes, and the
dangling mass spread uniformly (networkx's default dangling
distribution). -/
def prStep {n : ℕ} (g : WGraph n) (x : Fin n → ℚ) : Fin n → ℚ :=
  fun i =>
    (1 - prD) / n
      + prD * ∑ j, (if strength g j = 0 then 0 else x j * g.weight j i / strength g j)
      + prD * (∑ j, if strength g j = 0 then x j else 0) / n

/-- The pagerank iteration loop: stop with the fresh vector once the L1
change drops below `N * tol`, report non-convergence when the iteration
budget is exhausted. -/
def prLoop {n : ℕ} (g : WGraph n) : ℕ → (Fin n → ℚ) → Except Unit (Fin n → ℚ)
  | 0, _ => Except.error ()
  | k + 1, x =>
      if (∑ i, |prStep g x i - x i|) < n * prTol then Except.ok (prStep g x)
      else prLoop g k (prStep g x)

/-- Models `nx.pagerank(nx_graph)` with its defaults: uniform start `1/N`,
`max_iter = 100`. -/
def pagerank {n : ℕ} (g : WGraph n) : Except Unit (Fin n → ℚ) :=
  prLoop g 100 (fun _ => 1 / (n : ℚ))

/-- A node with no positive-weight edge to any other node (self-loop
allowed), the claim's notion of an isolated node of the similarity
graph. -/
def isolatedNode {n : ℕ} (M : Fin n → Fin n → ℚ) (i : Fin n) : Prop :=
  ∀ j, j ≠ i → M i j = 0 ∧ M j i = 0

instance {n : ℕ} (M : Fin n → Fin n → ℚ) (i : Fin n) :
    Decidable (isolatedNode M i) := by
  unfold isolatedNode; infer_instance

/-- The 1×1 all-zero similarity matrix: a single proposition with no
similarity to anything (row of zeros, as `fillna(0)` produces for a text
with no in-vocabulary tokens). -/
def mzer : Fin 1 → Fin 1 → ℚ := fun _ _ => 0

/-- The pagerank score vector on `mzer`'s graph: the single node keeps all
the mass. -/
def pr1 : Fin 1 → ℚ := fun _ => 1

/-- The 1×1 all-one similarity matrix: one proposition with a self-loop of
weight 1 (its nonzero self-similarity). -/
def mone : Fin 1 → Fin 1 → ℚ := fun _ _ => 1

/-! ## Embedding-centroid (word2vec) similarity

The centroid and cosine cells are "To do" placeholders; they are modelled
from the spec.  The `sim.fillna(0)` cell is real source code. -/

/-- In-vocabulary token vectors of a text, in token order: tokens absent
from the pretrained lookup are skipped. -/
def resolved (dim : ℕ) (voc : String → Option (Fin dim → ℝ)) (a : List String) :
    List (Fin dim → ℝ) :=
  a.filterMap voc

/-- Modelled from the spec: the centroid cell is a To-do placeholder.  The
centroid of a text is the arithmetic mean of its resolvable tokens'
vectors; a text with no resolvable token has no centroid (`none`). -/
noncomputable def centroid (dim : ℕ) (voc : String → Option (Fin dim → ℝ))
    (a : List String) : Option (Fin dim → ℝ) :=
  let vs := resolved dim voc a
  if vs.isEmpty then none
  else some (fun d => ((vs.map (fun v => v d)).sum) / vs.length)

/-- Dot product of two vectors. -/
noncomputable def dotp (dim : ℕ) (u v : Fin dim → ℝ) : ℝ :=
  ∑ d, u d * v d

/-- Cosine similarity of two vectors, `⟨u,v⟩ / (‖u‖‖v‖)`. -/
noncomputable def cosineSim (dim : ℕ) (u v : Fin dim → ℝ) : ℝ :=
  dotp dim u v / (Real.sqrt (dotp dim u u) * Real.sqrt (dotp dim v v))

/-- Modelled from the spec: the cosine-similarity cell is a To-do
placeholder.  One raw similarity-matrix entry: the cosine of the two
centroids, and a missing value (`none`, Python's NaN — the reason the
notebook's next cell runs `sim.fillna(0)`) when either centroid is
undefined. -/
noncomputable def w2vEntry (dim : ℕ) (voc : String → Option (Fin dim → ℝ))
    (a b : List String) : Option ℝ :=
  match centroid dim voc a, centroid dim voc b with
  | some u, some v => some (cosineSim dim u v)
  | _, _ => none

/-- The source cell `sim = sim.fillna(0)`: missing entries become `0`. -/
def fillna (x : Option ℝ) : ℝ :=
  x.getD 0

/-- The everywhere-missing vocabulary (no token resolves). -/
def voc0 : String → Option (Fin 1 → ℝ) := fun _ => none

/-! ## Eigenvector centrality (`nx.eigenvector_centrality`)

Modelled by networkx's documented power iteration: starting uniform, each
round sets `y = x + A x`, normalises `y` by its Euclidean norm (or by 1
when the norm is 0), and stops when the L1 change drops below `N * tol`;
when `max_iter` rounds pass without that, it raises
`PowerIterationFailedConvergence` rather than returning scores. -/

/-- networkx's `tol=1e-06` as passed by the notebook. -/
noncomputable def evcTol : ℝ := 1 / 1000000

/-- One accumulation pass `x[nbr] += xlast[n] * w`: `y = x + A x` for the
symmetric adjacency `A`. -/
noncomputable def evcAx {n : ℕ} (A : Fin n → Fin n → ℝ) (x : Fin n → ℝ) :
    Fin n → ℝ :=
  fun j => x j + ∑ l, A l j * x l

/-- Models `math.hypot(*x.values()) or 1.0`: the Euclidean norm, replaced by 1
when it is 0. -/
noncomputable def evcNorm {n : ℕ} (y : Fin n → ℝ) : ℝ :=
  if Real.sqrt (∑ j, y j ^ 2) = 0 then 1 else Real.sqrt (∑ j, y j ^ 2)

/-- One full eigenvector-centrality iteration: accumulate, then
normalise. -/
noncomputable def evcStep {n : ℕ} (A : Fin n → Fin n → ℝ) (x : Fin n → ℝ) :
    Fin n → ℝ :=
  fun i => evcAx A x i / evcNorm (evcAx A x)

/-- The power-iteration loop: return the fresh vector once the L1 change
drops below `N * tol`; report non-convergence when the iteration budget is
exhausted (the `raise PowerIterationFailedConvergence` branch). -/
noncomputable def evcLoop {n : ℕ} (A : Fin n → Fin n → ℝ) :
    ℕ → (Fin n → ℝ) → Except Unit (Fin n → ℝ)
  | 0, _ => Except.error ()
  | k + 1, x =>
      if (∑ i, |evcStep A x i - x i|) < n * evcTol then Except.ok (evcStep A x)
      else evcLoop A k (evcStep A x)

/-- Models `nx.eigenvector_centrality(sub_graph, max_iter, tol=1e-06,
nstart=None, weight='weight')`: uniform start `1/N`, then the capped power iteration. -/
noncomputable def eigenvectorCentrality {n : ℕ} (A : Fin n → Fin n → ℝ)
    (maxIter : ℕ) : Except Unit (Fin n → ℝ) :=
  evcLoop A maxIter (fun _ => 1 / (n : ℝ))

/-- The 4-node star graph (adjacency matrix): node 0 is the hub, nodes
1–3 are leaves, all edge weights 1. -/
def star4 : Fin 4 → Fin 4 → ℝ :=
  fun i j => if (i = 0 ∧ j ≠ 0) ∨ (j = 0 ∧ i ≠ 0) then 1 else 0

/-- The uniform start vector on the 4-node star. -/
noncomputable def x0star : Fin 4 → ℝ := fun _ => 1 / (4 : ℝ)

/-- The accumulated (pre-normalisation) vector after one pass on the
star: 1 at the hub, 1/2 at each leaf. -/
noncomputable def y4 : Fin 4 → ℝ := fun j => if j = 0 then 1 else 1 / 2

/-- The two toy corpus files of the carried-over `nodeID` scenario: the
relation node `R` lives in the first file, which has no edges at all; the
second file has an edge pointing at `R`. -/
def fileR : NodeSet := ⟨[⟨"R", "RA"⟩], []⟩

/-- The second toy corpus file: one I-node and one edge `A → R` aimed at
the previous file's relation node. -/
def fileP : NodeSet := ⟨[⟨"P", "I"⟩], [⟨"A", "R"⟩]⟩

/-- A one-file toy corpus: relation node `S` fed by propositions `A` and
`B`. -/
def fileS : NodeSet :=
  ⟨[⟨"S", "RA"⟩, ⟨"A", "I"⟩, ⟨"B", "I"⟩], [⟨"A", "S"⟩, ⟨"B", "S"⟩]⟩

end CATut

namespace CATut

theorem prLoop_succ {n : ℕ} (g : WGraph n) (k : ℕ) (x : Fin n → ℚ) :
    prLoop g (k + 1) x =
      if (∑ i, |prStep g x i - x i|) < n * prTol then Except.ok (prStep g x)
      else prLoop g k (prStep g x) := rfl

/-- Concrete evaluation: on the 1×1 zero matrix the power iteration
converges at the first step and the single (isolated, dangling) node keeps
the whole unit mass. -/
theorem prZeroEval : pagerank (fromNumpyArray mzer) = Except.ok pr1 := by
  have hstep : prStep (fromNumpyArray mzer) (fun _ => 1 / ((1 : ℕ) : ℚ)) = pr1 := by
    funext i
    simp [prStep, strength, fromNumpyArray, mzer, pr1, prD]
  show prLoop (fromNumpyArray mzer) 100 (fun _ => 1 / ((1 : ℕ) : ℚ)) = Except.ok pr1
  rw [show (100 : ℕ) = 99 + 1 from rfl, prLoop_succ, hstep]
  rw [if_pos]
  simp [pr1, prTol]

/-! ## C10: which relation nodes get recorded, and safety of the deletion
loop -/

theorem foldl_invariant {α β : Type} (P : β → Prop) (g : β → α → β)
    (l : List α) (st : β) (h0 : P st)
    (hstep : ∀ st a, a ∈ l → P st → P (g st a)) : P (l.foldl g st) := by
  induction l generalizing st with
  | nil => exact h0
  | cons a l ih =>
      exact ih (g st a) (hstep st a (List.mem_cons_self a l) h0)
        (fun st' b hb => hstep st' b (List.mem_cons_of_mem a hb))

theorem dictKeys_dictSet {m : List (String × List String)} {k x : String}
    {v : List String} (hx : x ∈ dictKeys (dictSet m k v)) :
    x = k ∨ x ∈ dictKeys m := by
  unfold dictSet dictKeys at hx
  by_cases hc : m.any (fun p => p.1 == k)
  · rw [if_pos hc, List.map_map] at hx
    rcases List.mem_map.mp hx with ⟨q, hq, hqe⟩
    simp only [Function.comp_apply] at hqe
    by_cases hqk : (q.1 == k) = true
    · rw [if_pos hqk] at hqe
      left
      exact hqe.symm
    · rw [if_neg hqk] at hqe
      right
      exact List.mem_map.mpr ⟨q, hq, hqe⟩
  · rw [if_neg hc, List.map_append] at hx
    rcases List.mem_append.mp hx with h | h
    · right
      exact h
    · left
      simpa using h

theorem imap_update_inv {files : List NodeSet} {f : NodeSet} (hf : f ∈ files)
    {k : String} (hkrel : k ∈ relationIDs files)
    {m : List (String × List String)}
    (hm : ∀ x, x ∈ dictKeys m → x ∈ relationIDs files ∧ x ∈ edgeTargets files) :
    ∀ x, x ∈ dictKeys
        (if ((f.edges.filter (fun e => e.toID == k)).map (fun e => e.fromID)).isEmpty
         then m
         else dictSet m k ((f.edges.filter (fun e => e.toID == k)).map (fun e => e.fromID))) →
      x ∈ relationIDs files ∧ x ∈ edgeTargets files := by
  intro x hx
  by_cases hcol :
      (((f.edges.filter (fun e => e.toID == k)).map (fun e => e.fromID)).isEmpty) = true
  · rw [if_pos hcol] at hx
    exact hm x hx
  · rw [if_neg hcol] at hx
    rcases dictKeys_dictSet hx with rfl | hxm
    · refine ⟨hkrel, ?_⟩
      have hne : f.edges.filter (fun e => e.toID == x) ≠ [] := by
        intro h0
        rw [h0] at hcol
        simp at hcol
      rcases List.exists_mem_of_ne_nil _ hne with ⟨e, he⟩
      have hef := List.mem_filter.mp he
      exact List.mem_flatMap.mpr
        ⟨f, hf, List.mem_map.mpr ⟨e, hef.1, beq_iff_eq.mp hef.2⟩⟩
    · exact hm x hxm

theorem stepNode_inv {files : List NodeSet} {f : NodeSet} (hf : f ∈ files)
    {st : PState} {nd : AifNode} (hnd : nd ∈ f.nodes)
    (hcur : ∀ k, st.cur = some k → k ∈ relationIDs files)
    (himap : ∀ k, k ∈ dictKeys st.imap → k ∈ relationIDs files ∧ k ∈ edgeTargets files) :
    (∀ k, (stepNode f.edges st nd).cur = some k → k ∈ relationIDs files) ∧
      (∀ k, k ∈ dictKeys (stepNode f.edges st nd).imap →
        k ∈ relationIDs files ∧ k ∈ edgeTargets files) := by
  have hsome : ∀ c, (if nd.type == "CA" || nd.type == "RA" then some nd.nodeID else st.cur)
      = some c → c ∈ relationIDs files := by
    intro c hc
    by_cases ht : (nd.type == "CA" || nd.type == "RA") = true
    · rw [if_pos ht] at hc
      cases hc
      exact List.mem_flatMap.mpr
        ⟨f, hf, List.mem_map.mpr ⟨nd, List.mem_filter.mpr ⟨hnd, ht⟩, rfl⟩⟩
    · rw [if_neg ht] at hc
      exact hcur c hc
  unfold stepNode
  rcases hcc : (if nd.type == "CA" || nd.type == "RA" then some nd.nodeID else st.cur)
    with _ | c
  · exact ⟨fun k hk => Option.noConfusion hk, himap⟩
  · refine ⟨fun k hk => ?_, imap_update_inv hf (hsome c hcc) himap⟩
    have hck : c = k := Option.some.inj hk
    exact hck ▸ hsome c hcc

theorem stepFile_inv {files : List NodeSet} {f : NodeSet} (hf : f ∈ files) {st : PState}
    (h : (∀ k, st.cur = some k → k ∈ relationIDs files) ∧
      (∀ k, k ∈ dictKeys st.imap → k ∈ relationIDs files ∧ k ∈ edgeTargets files)) :
    (∀ k, (stepFile st f).cur = some k → k ∈ relationIDs files) ∧
      (∀ k, k ∈ dictKeys (stepFile st f).imap →
        k ∈ relationIDs files ∧ k ∈ edgeTargets files) := by
  unfold stepFile
  exact foldl_invariant
    (fun st : PState => (∀ k, st.cur = some k → k ∈ relationIDs files) ∧
      (∀ k, k ∈ dictKeys st.imap → k ∈ relationIDs files ∧ k ∈ edgeTargets files))
    (stepNode f.edges) f.nodes st h
    (fun st' nd hnd hst => stepNode_inv hf hnd hst.1 hst.2)

theorem interestingNodes_inv (files : List NodeSet) :
    ∀ k, k ∈ dictKeys (interestingNodes files) →
      k ∈ relationIDs files ∧ k ∈ edgeTargets files := by
  unfold interestingNodes
  have h := foldl_invariant
    (fun st : PState => (∀ k, st.cur = some k → k ∈ relationIDs files) ∧
      (∀ k, k ∈ dictKeys st.imap → k ∈ relationIDs files ∧ k ∈ edgeTargets files))
    stepFile files ⟨none, []⟩
    ⟨fun k hk => Option.noConfusion hk, fun k hk => absurd hk (by simp [dictKeys])⟩
    (fun st f hf hst => stepFile_inv hf hst)
  exact h.2

theorem keys_mem_listOfNodes {m : List (String × List String)} {k : String}
    (hk : k ∈ dictKeys m) : k ∈ listOfNodes m := by
  rcases List.mem_map.mp hk with ⟨p, hp, hpe⟩
  refine List.mem_flatMap.mpr ⟨p, hp, ?_⟩
  rw [← hpe]
  exact List.mem_cons_self _ _

/-- C10 counterexample: the relation node `R` has no incoming edge in its
own nodeset (`fileR.edges = []`), yet it is recorded in
`interesting_nodes`, because the Python loop variable `nodeID` carries
over into the next file, whose edge `A → R` is then collected for `R`. -/
theorem claim_C10_cex :
    (⟨"R", "RA"⟩ : AifNode) ∈ fileR.nodes ∧ fileR.edges = [] ∧
      "R" ∈ dictKeys (interestingNodes [fileR, fileP]) := by decide

/-- C10 amended: every key recorded in `interesting_nodes` is an RA/CA
relation node that has an incoming edge in some nodeset of the corpus (not
necessarily its own, because the loop variable carries over between
files), and every such key is a node of the built sub-graph — hence the
post-computation loop `del centrality[key]` only ever deletes keys present
in the centrality result and cannot fail with a missing-key error. -/
theorem claim_C10 (files : List NodeSet) (k : String)
    (hk : k ∈ dictKeys (interestingNodes files)) :
    k ∈ relationIDs files ∧ k ∈ edgeTargets files ∧
      k ∈ listOfNodes (interestingNodes files) :=
  ⟨(interestingNodes_inv files k hk).1, (interestingNodes_inv files k hk).2,
    keys_mem_listOfNodes hk⟩

theorem claim_C10_witness :
    "R" ∈ dictKeys (interestingNodes [fileR, fileP]) ∧
      ("R" ∈ relationIDs [fileR, fileP] ∧ "R" ∈ edgeTargets [fileR, fileP] ∧
        "R" ∈ listOfNodes (interestingNodes [fileR, fileP])) :=
  ⟨by decide, claim_C10 [fileR, fileP] "R" (by decide)⟩

/-! ## C6: eigenvector centrality fails cleanly on non-convergence -/

theorem evcLoop_succ {n : ℕ} (A : Fin n → Fin n → ℝ) (k : ℕ) (x : Fin n → ℝ) :
    evcLoop A (k + 1) x =
      if (∑ i, |evcStep A x i - x i|) < n * evcTol then Except.ok (evcStep A x)
      else evcLoop A k (evcStep A x) := rfl

theorem star4_Ax : evcAx star4 x0star = y4 := by
  funext j
  unfold evcAx star4 x0star y4
  fin_cases j <;>
    simp [Fin.sum_univ_four] <;> norm_num

theorem star4_norm : evcNorm y4 = Real.sqrt (7 / 4) := by
  unfold evcNorm y4
  have hsum : (∑ j : Fin 4, (if j = (0 : Fin 4) then (1 : ℝ) else 1 / 2) ^ 2) = 7 / 4 := by
    rw [Fin.sum_univ_four, if_pos rfl, if_neg (by decide), if_neg (by decide),
      if_neg (by decide)]
    norm_num
  rw [hsum, if_neg (Real.sqrt_ne_zero'.mpr (by norm_num))]

theorem star4_step0 : evcStep star4 x0star 0 = 1 / Real.sqrt (7 / 4) := by
  unfold evcStep
  rw [star4_Ax, star4_norm]
  simp [y4]

theorem star4_cap1 : eigenvectorCentrality star4 1 = Except.error () := by
  show evcLoop star4 (0 + 1) (fun _ => 1 / ((4 : ℕ) : ℝ)) = Except.error ()
  rw [show (fun _ : Fin 4 => 1 / ((4 : ℕ) : ℝ)) = x0star from by
    funext i
    unfold x0star
    norm_num]
  rw [evcLoop_succ, if_neg]
  · rfl
  · rw [not_lt, Fin.sum_univ_four, star4_step0, show x0star 0 = 1 / 4 from rfl]
    have hs_pos : (0 : ℝ) < Real.sqrt (7 / 4) := Real.sqrt_pos.mpr (by norm_num)
    have hs_le : Real.sqrt (7 / 4) ≤ 2 := by
      have h4 : Real.sqrt 4 = 2 := by
        rw [show (4 : ℝ) = 2 ^ 2 by norm_num, Real.sqrt_sq (by norm_num)]
      calc Real.sqrt (7 / 4) ≤ Real.sqrt 4 := Real.sqrt_le_sqrt (by norm_num)
        _ = 2 := h4
    have hq : (1 : ℝ) / 2 ≤ 1 / Real.sqrt (7 / 4) := one_div_le_one_div_of_le hs_pos hs_le
    have h0 : (1 : ℝ) / 4 ≤ |1 / Real.sqrt (7 / 4) - 1 / 4| := by
      have hle := le_abs_self ((1 : ℝ) / Real.sqrt (7 / 4) - 1 / 4)
      linarith
    have h1 := abs_nonneg (evcStep star4 x0star 1 - x0star 1)
    have h2 := abs_nonneg (evcStep star4 x0star 2 - x0star 2)
    have h3 := abs_nonneg (evcStep star4 x0star 3 - x0star 3)
    have htol : ((4 : ℕ) : ℝ) * evcTol ≤ 1 / 4 := by norm_num [evcTol]
    linarith

/-- C6: the eigenvector-centrality power iteration never silently returns
a non-converged score vector — whatever it returns passed the
`err < N * tol` test at its final step — and with the iteration cap set to
1 on the 4-node star (a graph needing more iterations) it reports the
distinct non-convergence outcome instead of returning scores. -/
theorem claim_C6 :
    eigenvectorCentrality star4 1 = Except.error () ∧
      ∀ (n k : ℕ) (A : Fin n → Fin n → ℝ) (x s : Fin n → ℝ),
        evcLoop A k x = Except.ok s →
          ∃ xp, s = evcStep A xp ∧ (∑ i, |s i - xp i|) < n * evcTol := by
  refine ⟨star4_cap1, ?_⟩
  intro n k A x s h
  induction k generalizing x with
  | zero => exact Except.noConfusion h
  | succ k ih =>
      rw [evcLoop_succ] at h
      by_cases hc : (∑ i, |evcStep A x i - x i|) < n * evcTol
      · rw [if_pos hc] at h
        have hs : evcStep A x = s := Except.ok.inj h
        subst hs
        exact ⟨x, rfl, hc⟩
      · rw [if_neg hc] at h
        exact ih _ h

/-! ## C9: the diagonal is not zeroed, nonzero self-similarity becomes a
self-loop -/

/-- C9: the similarity matrix is handed to `nx.from_numpy_array` with no
diagonal zeroing, so every proposition with a nonzero self-similarity
entry gets a self-loop of exactly that weight in the graph handed to
PageRank. -/
theorem claim_C9 (n : ℕ) (M : Fin n → Fin n → ℚ) (i : Fin n) (h : M i i ≠ 0) :
    (fromNumpyArray M).hasEdge i i ∧ (fromNumpyArray M).weight i i = M i i :=
  ⟨h, rfl⟩

theorem claim_C9_witness :
    mone 0 0 ≠ 0 ∧
      ((fromNumpyArray mone).hasEdge 0 0 ∧ (fromNumpyArray mone).weight 0 0 = mone 0 0) :=
  ⟨by norm_num [mone], claim_C9 1 mone 0 (by norm_num [mone])⟩

/-! ## C2: the sentinel rank is the magic number 1173, not one past the
last valid rank -/

/-- C2 counterexample: for the ranking `["a"]` the last valid rank is `0`,
so one past it is `1`; the aligner instead assigns the absent proposition
`"b"` the fixed value `1173`. -/
theorem claim_C2_cex :
    alignRanks ["a"] ["a", "b"] = [0, 1173] ∧
      (["a"] : List String).length = 1 ∧ (1173 : ℕ) ≠ 1 := by decide

/-- C2 amended: a proposition of the corpus absent from a ranking is
assigned the fixed sentinel rank `1173` (a magic number independent of the
ranking's length) instead of raising an error — the aligner stays total
and produces one rank per corpus proposition. -/
theorem claim_C2 (ranking index : List String) (pid : String)
    (_hmem : pid ∈ index) (habs : pid ∉ ranking) :
    rankOf ranking pid = 1173 ∧ (alignRanks ranking index).length = index.length := by
  refine ⟨?_, by simp [alignRanks]⟩
  have hnone : ranking.findIdx? (fun x => x == pid) = none := by
    rw [List.findIdx?_eq_none_iff]
    intro x hx
    exact beq_eq_false_iff_ne.mpr (fun hxp => habs (hxp ▸ hx))
  unfold rankOf
  rw [hnone]

/-! ## C5: mass conservation and the isolated-node score of
`nx.pagerank` -/

theorem prStep_sum {n : ℕ} (hn : 0 < n) (g : WGraph n) (x : Fin n → ℚ) :
    ∑ i, prStep g x i = (1 - prD) + prD * ∑ j, x j := by
  have hn' : (n : ℚ) ≠ 0 := Nat.cast_ne_zero.mpr hn.ne'
  unfold prStep
  rw [Finset.sum_add_distrib, Finset.sum_add_distrib]
  have h1 : (∑ _i : Fin n, (1 - prD) / (n : ℚ)) = 1 - prD := by
    rw [Finset.sum_const, Finset.card_univ, Fintype.card_fin, nsmul_eq_mul]
    field_simp
  have h3 : (∑ _i : Fin n, prD * (∑ j, if strength g j = 0 then x j else 0) / (n : ℚ))
      = prD * (∑ j, if strength g j = 0 then x j else 0) := by
    rw [Finset.sum_const, Finset.card_univ, Fintype.card_fin, nsmul_eq_mul]
    field_simp
  have h2 : (∑ i, prD *
        ∑ j, (if strength g j = 0 then 0 else x j * g.weight j i / strength g j))
      = prD * ∑ j, (if strength g j = 0 then 0 else x j) := by
    rw [← Finset.mul_sum]
    congr 1
    rw [Finset.sum_comm]
    refine Finset.sum_congr rfl (fun j _ => ?_)
    by_cases hσ : strength g j = 0
    · simp [hσ]
    · simp only [if_neg hσ]
      rw [← Finset.sum_div, ← Finset.mul_sum,
        show (∑ i, g.weight j i) = strength g j from rfl,
        mul_div_assoc, div_self hσ, mul_one]
  rw [h1, h2, h3, add_assoc, ← mul_add, ← Finset.sum_add_distrib]
  congr 2
  refine Finset.sum_congr rfl (fun j _ => ?_)
  by_cases hσ : strength g j = 0 <;> simp [hσ]

theorem prStep_floor {n : ℕ} (g : WGraph n) (hw : ∀ a b, 0 ≤ g.weight a b)
    (x : Fin n → ℚ) (hx : ∀ j, 0 ≤ x j) (i : Fin n) :
    (1 - prD) / n ≤ prStep g x i := by
  unfold prStep
  have hterm2 : 0 ≤ prD *
      ∑ j, (if strength g j = 0 then 0 else x j * g.weight j i / strength g j) := by
    apply mul_nonneg (by norm_num [prD])
    apply Finset.sum_nonneg
    intro j _
    by_cases hσ : strength g j = 0
    · simp [hσ]
    · rw [if_neg hσ]
      have hσ0 : 0 ≤ strength g j := Finset.sum_nonneg (fun l _ => hw j l)
      exact div_nonneg (mul_nonneg (hx j) (hw j i)) hσ0
  have hterm3 : 0 ≤ prD * (∑ j, if strength g j = 0 then x j else 0) / n := by
    apply div_nonneg _ (Nat.cast_nonneg n)
    apply mul_nonneg (by norm_num [prD])
    apply Finset.sum_nonneg
    intro j _
    by_cases hσ : strength g j = 0 <;> simp [hσ, hx j]
  linarith

theorem prStep_nonneg {n : ℕ} (g : WGraph n) (hw : ∀ a b, 0 ≤ g.weight a b)
    (x : Fin n → ℚ) (hx : ∀ j, 0 ≤ x j) (i : Fin n) : 0 ≤ prStep g x i :=
  le_trans (div_nonneg (by norm_num [prD]) (Nat.cast_nonneg n))
    (prStep_floor g hw x hx i)

theorem prLoop_ok {n : ℕ} (hn : 0 < n) (g : WGraph n)
    (hw : ∀ a b, 0 ≤ g.weight a b) :
    ∀ (k : ℕ) (x : Fin n → ℚ), (∑ j, x j = 1) → (∀ j, 0 ≤ x j) →
      ∀ s, prLoop g k x = Except.ok s →
        (∑ j, s j = 1) ∧ ∀ i, (1 - prD) / n ≤ s i := by
  intro k
  induction k with
  | zero =>
      intro x _ _ s h
      exact Except.noConfusion h
  | succ k ih =>
      intro x hsum hpos s h
      rw [prLoop_succ] at h
      by_cases hc : (∑ i, |prStep g x i - x i|) < n * prTol
      · rw [if_pos hc] at h
        have hs : prStep g x = s := Except.ok.inj h
        subst hs
        refine ⟨?_, fun i => prStep_floor g hw x hpos i⟩
        rw [prStep_sum hn g x, hsum]
        norm_num [prD]
      · rw [if_neg hc] at h
        refine ih (prStep g x) ?_ (fun j => prStep_nonneg g hw x hpos j) s h
        rw [prStep_sum hn g x, hsum]
        norm_num [prD]

/-- C5 counterexample: on the 1×1 zero similarity matrix the single node
is isolated (it is dangling, so it keeps the whole unit mass under the
uniform dangling redistribution), and its score `1` is not the
teleportation floor `(1 - 0.85) / 1 = 0.15`. -/
theorem claim_C5_cex :
    isolatedNode mzer 0 ∧ pagerank (fromNumpyArray mzer) = Except.ok pr1 ∧
      pr1 0 ≠ (1 - prD) / ((1 : ℕ) : ℚ) := by
  refine ⟨fun j hj => ⟨rfl, rfl⟩, prZeroEval, ?_⟩
  norm_num [pr1, prD]

/-- C5 amended: any score vector returned by `nx.pagerank` on a
non-negative similarity matrix sums exactly to 1, and every node's score —
in particular every isolated node's — is at least the uniform
teleportation floor `(1 - 0.85) / N` (an isolated node with positive
dangling mass ends strictly above the floor, as the counterexample
shows). -/
theorem claim_C5 (n : ℕ) (M : Fin n → Fin n → ℚ) (s : Fin n → ℚ) (i : Fin n)
    (hn : 0 < n) (hw : ∀ a b, 0 ≤ M a b)
    (hok : pagerank (fromNumpyArray M) = Except.ok s) :
    (∑ j, s j = 1) ∧ (isolatedNode M i → (1 - prD) / n ≤ s i) := by
  have hx0sum : (∑ _j : Fin n, (1 / (n : ℚ))) = 1 := by
    rw [Finset.sum_const, Finset.card_univ, Fintype.card_fin, nsmul_eq_mul]
    field_simp
  have h := prLoop_ok hn (fromNumpyArray M) hw 100 (fun _ => 1 / (n : ℚ)) hx0sum
    (fun _j => div_nonneg zero_le_one (Nat.cast_nonneg n)) s hok
  exact ⟨h.1, fun _ => h.2 i⟩

theorem claim_C5_witness :
    (0 < 1 ∧ (∀ a b : Fin 1, 0 ≤ mzer a b) ∧
        pagerank (fromNumpyArray mzer) = Except.ok pr1) ∧
      ((∑ j, pr1 j = 1) ∧ (isolatedNode mzer 0 → (1 - prD) / ((1 : ℕ) : ℚ) ≤ pr1 0)) :=
  ⟨⟨Nat.one_pos, fun _ _ => le_refl 0, prZeroEval⟩,
    claim_C5 1 mzer pr1 0 Nat.one_pos (fun _ _ => le_refl 0) prZeroEval⟩

/-! ## C3, C4: overlap similarity -/

theorem overlapSim_of_two_le {a b : List String} (ha : 2 ≤ a.length)
    (hb : 2 ≤ b.length) :
    overlapSim a b = (commonCount a b : ℝ) / (Real.log a.length + Real.log b.length) := by
  unfold overlapSim
  rw [if_neg (by simp only [not_or, not_le]; omega)]

theorem log_two_lt_one : Real.log 2 < 1 := by
  have h2e : (2 : ℝ) < Real.exp 1 := lt_trans (by norm_num) Real.exp_one_gt_d9
  calc Real.log 2 < Real.log (Real.exp 1) := Real.log_lt_log (by norm_num) h2e
    _ = 1 := Real.log_exp 1

/-- C3 counterexample: the overlap similarity of the token sequence
`["a", "b"]` with itself is `2 / (log 2 + log 2) = 1 / log 2 > 1`, not
`1.0`. -/
theorem claim_C3_cex : overlapSim ["a", "b"] ["a", "b"] ≠ 1 := by
  have h := @overlapSim_of_two_le ["a", "b"] ["a", "b"] (by decide) (by decide)
  have hc : commonCount ["a", "b"] ["a", "b"] = 2 := by decide
  rw [hc] at h
  norm_num at h
  rw [h]
  have hl0 : 0 < Real.log 2 := Real.log_pos (by norm_num)
  intro hone
  rw [div_eq_one_iff_eq (by positivity)] at hone
  have := log_two_lt_one
  linarith

/-- C3 amended: the overlap similarity of a token sequence `a` of length at
least 2 with itself equals (number of distinct tokens of `a`) divided by
`2 * log |a|` — which is not `1.0` in general (see the counterexample). -/
theorem claim_C3 (a : List String) (h : 2 ≤ a.length) :
    overlapSim a a = (a.toFinset.card : ℝ) / (2 * Real.log a.length) := by
  rw [overlapSim_of_two_le h h]
  unfold commonCount
  rw [Finset.inter_self, ← two_mul]

theorem claim_C3_witness :
    2 ≤ (["a", "b"] : List String).length ∧
      overlapSim ["a", "b"] ["a", "b"]
        = (((["a", "b"] : List String).toFinset.card : ℝ)
            / (2 * Real.log (["a", "b"] : List String).length)) :=
  ⟨by decide, claim_C3 ["a", "b"] (by decide)⟩

/-- C4: the overlap similarity equals (tokens common to both sequences,
counted without duplicates) / (log |a| + log |b|) for sequences of length
at least 2, is 0 when either sequence has length 0 or 1, and on the
notebook's example pair it equals `2 / (log 5 + log 5)` (≈ 0.6213). -/
theorem claim_C4 :
    (∀ a b : List String, 2 ≤ a.length → 2 ≤ b.length →
        overlapSim a b = (commonCount a b : ℝ) / (Real.log a.length + Real.log b.length)) ∧
      (∀ a b : List String, a.length ≤ 1 ∨ b.length ≤ 1 → overlapSim a b = 0) ∧
      overlapSim ["carson", "want", "a", "flat", "tax"]
          ["carson", "wants", "two", "flat", "taxes"]
        = 2 / (Real.log 5 + Real.log 5) := by
  refine ⟨fun a b ha hb => overlapSim_of_two_le ha hb,
    fun a b h => by unfold overlapSim; rw [if_pos h], ?_⟩
  have h := @overlapSim_of_two_le ["carson", "want", "a", "flat", "tax"]
    ["carson", "wants", "two", "flat", "taxes"] (by decide) (by decide)
  have hc : commonCount ["carson", "want", "a", "flat", "tax"]
      ["carson", "wants", "two", "flat", "taxes"] = 2 := by decide
  rw [hc] at h
  norm_num at h
  exact h

/-! ## C7, C8: embedding-centroid similarity -/

theorem dotp_comm (dim : ℕ) (u v : Fin dim → ℝ) : dotp dim u v = dotp dim v u := by
  unfold dotp
  exact Finset.sum_congr rfl (fun d _ => mul_comm _ _)

theorem cosineSim_comm (dim : ℕ) (u v : Fin dim → ℝ) :
    cosineSim dim u v = cosineSim dim v u := by
  unfold cosineSim
  rw [dotp_comm dim u v, mul_comm]

theorem cosineSim_self (dim : ℕ) (u : Fin dim → ℝ) :
    cosineSim dim u u = 0 ∨ cosineSim dim u u = 1 := by
  unfold cosineSim
  have hd : 0 ≤ dotp dim u u := Finset.sum_nonneg (fun d _ => mul_self_nonneg _)
  rw [Real.mul_self_sqrt hd]
  by_cases h : dotp dim u u = 0
  · left
    rw [h]
    simp
  · right
    exact div_self h

/-- C7: whenever either text has no token resolvable in the pretrained
vocabulary (undefined centroid), the raw matrix entry is the missing value
and the `sim.fillna(0)` cell turns it into exactly `0` before the matrix
reaches `nx.from_numpy_array`. -/
theorem claim_C7 (dim : ℕ) (voc : String → Option (Fin dim → ℝ)) (a b : List String)
    (h : centroid dim voc a = none ∨ centroid dim voc b = none) :
    fillna (w2vEntry dim voc a b) = 0 := by
  unfold w2vEntry
  rcases h with h | h
  · rw [h]
    cases centroid dim voc b <;> rfl
  · rw [h]
    cases centroid dim voc a <;> rfl

theorem claim_C7_witness :
    (centroid 1 voc0 ["x"] = none ∨ centroid 1 voc0 ["y"] = none) ∧
      fillna (w2vEntry 1 voc0 ["x"] ["y"]) = 0 :=
  ⟨Or.inl rfl, claim_C7 1 voc0 ["x"] ["y"] (Or.inl rfl)⟩

/-- C8: both similarity variants are symmetric, the overlap
self-similarity is a well-defined non-negative real, and the
embedding-centroid self-similarity entry consumed by the graph builder is
always the definite number `0` or `1` (never a NaN: the `0/0` of a
zero-length centroid is normalised away). -/
theorem claim_C8 :
    (∀ a b : List String, overlapSim a b = overlapSim b a) ∧
      (∀ (dim : ℕ) (voc : String → Option (Fin dim → ℝ)) (a b : List String),
          w2vEntry dim voc a b = w2vEntry dim voc b a) ∧
      (∀ a : List String, 0 ≤ overlapSim a a) ∧
      (∀ (dim : ℕ) (voc : String → Option (Fin dim → ℝ)) (a : List String),
          fillna (w2vEntry dim voc a a) = 0 ∨ fillna (w2vEntry dim voc a a) = 1) := by
  refine ⟨?_, ?_, ?_, ?_⟩
  · intro a b
    unfold overlapSim commonCount
    by_cases h : a.length ≤ 1 ∨ b.length ≤ 1
    · rw [if_pos h, if_pos (Or.symm h)]
    · rw [if_neg h, if_neg (fun hc => h (Or.symm hc))]
      rw [Finset.inter_comm, add_comm]
  · intro dim voc a b
    unfold w2vEntry
    cases centroid dim voc a <;> cases centroid dim voc b <;>
      simp [cosineSim_comm]
  · intro a
    unfold overlapSim
    by_cases h : a.length ≤ 1 ∨ a.length ≤ 1
    · rw [if_pos h]
    · rw [if_neg h]
      apply div_nonneg (Nat.cast_nonneg _)
      have h2 : (1 : ℝ) ≤ a.length := by
        simp only [not_or, not_le] at h
        exact_mod_cast Nat.one_le_iff_ne_zero.mpr (by omega)
      have := Real.log_nonneg h2
      linarith
  · intro dim voc a
    unfold w2vEntry
    cases h : centroid dim voc a with
    | none => left; rfl
    | some u =>
        rcases cosineSim_self dim u with h0 | h1
        · left
          simp [fillna, h0]
        · right
          simp [fillna, h1]

/-! ## C1: the reference graph is hub-and-spoke, sources are not made
pairwise adjacent -/

theorem mem_listOfEdges {m : List (String × List String)} {k s : String}
    {srcs : List String} (hmem : (k, srcs) ∈ m) (hs : s ∈ srcs) :
    (s, k) ∈ listOfEdges m := by
  unfold listOfEdges
  exact List.mem_flatMap.mpr ⟨(k, srcs), hmem, List.mem_map.mpr ⟨s, hs, rfl⟩⟩

theorem mem_dictKeys {m : List (String × List String)} {k : String}
    {srcs : List String} (hmem : (k, srcs) ∈ m) : k ∈ dictKeys m :=
  List.mem_map.mpr ⟨(k, srcs), hmem, rfl⟩

/-- C1 counterexample: in the corpus `fileS` the propositions `A` and `B`
both feed the relation node `S`, yet they are not adjacent in the graph
over which eigenvector centrality is computed — the code only adds
source-to-hub edges, never source-to-source edges. -/
theorem claim_C1_cex :
    ("S", ["A", "B"]) ∈ interestingNodes [fileS] ∧
      ¬ subAdj (interestingNodes [fileS]) "A" "B" := by decide

/-- C1 amended: each source proposition of an RA/CA relation node becomes
adjacent (undirected) to the relation node itself — a hub-and-spoke graph,
with no pairwise adjacency induced among the sources — and the relation
node is removed from the final scored set after centrality is computed. -/
theorem claim_C1 (files : List NodeSet) (k s : String) (srcs : List String)
    (hmem : (k, srcs) ∈ interestingNodes files) (hs : s ∈ srcs) :
    subAdj (interestingNodes files) s k ∧ k ∉ scoredSet (interestingNodes files) := by
  refine ⟨Or.inl (mem_listOfEdges hmem hs), ?_⟩
  intro hk
  have := (List.mem_filter.mp hk).2
  simp only [Bool.not_eq_true', decide_eq_false_iff_not] at this
  exact this (mem_dictKeys hmem)

theorem claim_C1_witness :
    (("S", ["A", "B"]) ∈ interestingNodes [fileS] ∧ "A" ∈ (["A", "B"] : List String)) ∧
      (subAdj (interestingNodes [fileS]) "A" "S" ∧
        "S" ∉ scoredSet (interestingNodes [fileS])) :=
  ⟨⟨by decide, by decide⟩, claim_C1 [fileS] "S" "A" ["A", "B"] (by decide) (by decide)⟩

theorem claim_C2_witness :
    ("b" ∈ (["a", "b"] : List String) ∧ "b" ∉ (["a"] : List String)) ∧
      (rankOf ["a"] "b" = 1173 ∧
        (alignRanks ["a"] ["a", "b"]).length = (["a", "b"] : List String).length) :=
  ⟨⟨by decide, by decide⟩, claim_C2 ["a"] ["a", "b"] "b" (by decide) (by decide)⟩

end CATut
